import Mathlib

/-!
Verification of the sliding-window file-transfer system
(`sliding-window/py-med`: `shared.py`, `client.py`, `server.py`, `net.py`,
and the receiver-integrated variant `sliding-window/py`).

The development shallowly embeds the Python sources: bytes are naturals
below 256, byte strings are `List ℕ`, machine integers are naturals with
explicit bounds, and each Python function becomes a Lean function over an
explicit state.  Randomness (the mediator's Bernoulli trials) is passed in
as explicit rational draws, and real time is abstracted into discrete
events.
-/

namespace SlidingWindow

/-! ## Wire codec (`py-med/shared.py`)

Protocol constants.  The header format is `!HHIIHH`: SrcPort (2), DstPort
(2), Sequence Number (4), Ack Number (4), Flags (2), Window Size (2);
total 16 bytes. -/

def HEADER_SIZE : ℕ := 16

def SERVER_BUFFER_SIZE : ℕ := 1024

def MAX_PAYLOAD_SIZE : ℕ := SERVER_BUFFER_SIZE - HEADER_SIZE

def WINDOW_SIZE : ℕ := 5

def FLAG_SYN : ℕ := 0x01

def FLAG_ACK : ℕ := 0x02

def FLAG_FIN : ℕ := 0x04

/-- A protocol packet: six header fields plus an opaque payload
(`Packet.__init__` in `py-med/shared.py`). -/
structure Packet where
  src_port : ℕ
  dst_port : ℕ
  seq : ℕ
  ack : ℕ
  flags : ℕ
  window : ℕ
  data : List ℕ := []
  deriving Repr, DecidableEq

/-- Big-endian encoding of an unsigned 16-bit field (`struct.pack "!H"`). -/
def u16be (n : ℕ) : List ℕ := [n / 256 % 256, n % 256]

/-- Big-endian encoding of an unsigned 32-bit field (`struct.pack "!I"`). -/
def u32be (n : ℕ) : List ℕ :=
  [n / 16777216 % 256, n / 65536 % 256, n / 256 % 256, n % 256]

/-- Big-endian decoding of two bytes (`struct.unpack "!H"`). -/
def deU16 (b0 b1 : ℕ) : ℕ := b0 * 256 + b1

/-- Big-endian decoding of four bytes (`struct.unpack "!I"`). -/
def deU32 (b0 b1 b2 b3 : ℕ) : ℕ := b0 * 16777216 + b1 * 65536 + b2 * 256 + b3

/-- `Packet.pack`: the big-endian header followed by the payload. -/
def Packet.pack (p : Packet) : List ℕ :=
  u16be p.src_port ++ u16be p.dst_port ++ u32be p.seq ++ u32be p.ack ++
    u16be p.flags ++ u16be p.window ++ p.data

/-- `Packet.unpack`: rejects buffers shorter than `HEADER_SIZE` (the Python
code raises `ValueError`, modelled as `none`), otherwise parses the six
header fields from the first 16 bytes and takes the remainder as payload. -/
def Packet.unpack (buffer : List ℕ) : Option Packet :=
  if buffer.length < HEADER_SIZE then none
  else
    some { src_port := deU16 (buffer.getD 0 0) (buffer.getD 1 0)
           dst_port := deU16 (buffer.getD 2 0) (buffer.getD 3 0)
           seq := deU32 (buffer.getD 4 0) (buffer.getD 5 0) (buffer.getD 6 0) (buffer.getD 7 0)
           ack := deU32 (buffer.getD 8 0) (buffer.getD 9 0) (buffer.getD 10 0) (buffer.getD 11 0)
           flags := deU16 (buffer.getD 12 0) (buffer.getD 13 0)
           window := deU16 (buffer.getD 14 0) (buffer.getD 15 0)
           data := buffer.drop HEADER_SIZE }

theorem deU16_u16be (n : ℕ) (h : n < 65536) :
    deU16 ((u16be n).getD 0 0) ((u16be n).getD 1 0) = n := by
  simp [u16be, deU16]
  omega

theorem deU32_u32be (n : ℕ) (h : n < 4294967296) :
    deU32 ((u32be n).getD 0 0) ((u32be n).getD 1 0) ((u32be n).getD 2 0)
      ((u32be n).getD 3 0) = n := by
  simp [u32be, deU32]
  omega

/-- C7: decoding the encoding of an in-range packet reproduces it exactly. -/
theorem unpack_pack (p : Packet) (hsrc : p.src_port < 65536)
    (hdst : p.dst_port < 65536) (hseq : p.seq < 4294967296)
    (hack : p.ack < 4294967296) (hflags : p.flags < 65536)
    (hwin : p.window < 65536) :
    Packet.unpack (Packet.pack p) = some p := by
  obtain ⟨src, dst, seq, ack, flags, win, data⟩ := p
  simp only [Packet.pack, u16be, u32be, List.cons_append, List.nil_append]
  rw [Packet.unpack]
  simp only [List.length_cons, HEADER_SIZE]
  rw [if_neg (by omega)]
  simp only [List.getD, List.get?, List.drop, Option.getD, Option.some.injEq,
    Packet.mk.injEq, deU16, deU32]
  simp only at hsrc hdst hseq hack hflags hwin
  refine ⟨by omega, by omega, by omega, by omega, by omega, by omega, trivial⟩

/-- Witness for C7 at a concrete packet. -/
theorem unpack_pack_witness :
    Packet.unpack (Packet.pack ⟨40000, 9999, 101, 7, 2, 1024, [7, 8, 255]⟩) =
      some ⟨40000, 9999, 101, 7, 2, 1024, [7, 8, 255]⟩ :=
  unpack_pack _ (by decide) (by decide) (by decide) (by decide) (by decide)
    (by decide)

/-- C9: `Packet.unpack` fails exactly on buffers shorter than 16 bytes; on a
buffer of length at least 16 it succeeds and the payload is the buffer with
the first 16 bytes removed, so the payload length is the datagram length
minus 16. -/
theorem unpack_malformed_iff (buffer : List ℕ) :
    (buffer.length < HEADER_SIZE → Packet.unpack buffer = none) ∧
    (HEADER_SIZE ≤ buffer.length →
      ∃ p, Packet.unpack buffer = some p ∧ p.data = buffer.drop HEADER_SIZE ∧
        p.data.length + HEADER_SIZE = buffer.length) := by
  constructor
  · intro h
    simp [Packet.unpack, h]
  · intro h
    rw [Packet.unpack, if_neg (by omega)]
    exact ⟨_, rfl, rfl, by simp [List.length_drop]; omega⟩

/-- Witness for C9: a 3-byte buffer is rejected, a 20-byte buffer is
decoded with a 4-byte payload. -/
theorem unpack_malformed_iff_witness :
    Packet.unpack (List.replicate 3 0) = none ∧
    ∃ p, Packet.unpack (List.replicate 20 0) = some p ∧
      p.data = (List.replicate 20 0).drop HEADER_SIZE ∧
      p.data.length + HEADER_SIZE = (List.replicate 20 0).length :=
  ⟨(unpack_malformed_iff (List.replicate 3 0)).1 (by decide),
   (unpack_malformed_iff (List.replicate 20 0)).2 (by decide)⟩

/-! ## Receiver (`py-med/server.py`)

The server keeps per-client state `self.clients : client_id ↦
{expected_seq, current_file}`, keyed by the packet's `src_port`.  The open
file handle `current_file` is modelled by the on-disk contents of
`data/<client_id>.in`, kept in `files` (which persists after the handle is
closed).  Each handler returns the new state together with the list of
packets it sends to the network daemon. -/

structure ServerState where
  clients : ℕ → Option ℕ
  files : ℕ → List ℕ

/-- A cumulative-ACK reply from the server (src `sport`, dst `client_id`,
`seq=0`, the given ack number, `flags=FLAG_ACK`, `window=1024`). -/
def ackReply (sport client_id a : ℕ) : Packet :=
  { src_port := sport, dst_port := client_id, seq := 0, ack := a,
    flags := FLAG_ACK, window := 1024 }

/-- `Server.handle_syn`: unconditionally (re-)initialize the client's state
with `expected_seq = pkt.seq + 1`, send a SYN-ACK with `ack = pkt.seq + 1`,
and open `data/<client_id>.in` for writing (truncating it). -/
def handle_syn (sport client_id : ℕ) (pkt : Packet) (st : ServerState) :
    ServerState × List Packet :=
  ({ clients := fun q => if q = client_id then some (pkt.seq + 1) else st.clients q,
     files := fun q => if q = client_id then [] else st.files q },
   [{ src_port := sport, dst_port := client_id, seq := 0, ack := pkt.seq + 1,
      flags := FLAG_SYN ||| FLAG_ACK, window := 1024 }])

/-- `Server.handle_data`: ignore unknown clients; on an in-order packet with
non-empty payload append the payload to the file, advance `expected_seq`,
and ACK the new `expected_seq`; on `seq < expected_seq` (duplicate) or
`seq > expected_seq` (out-of-order) leave the state alone and re-send a
cumulative ACK for the current `expected_seq`. -/
def handle_data (sport client_id : ℕ) (pkt : Packet) (st : ServerState) :
    ServerState × List Packet :=
  match st.clients client_id with
  | none => (st, [])
  | some expected_seq =>
    if pkt.seq = expected_seq then
      if 0 < pkt.data.length then
        ({ clients := fun q =>
             if q = client_id then some (expected_seq + pkt.data.length)
             else st.clients q,
           files := fun q =>
             if q = client_id then st.files q ++ pkt.data else st.files q },
         [ackReply sport client_id (expected_seq + pkt.data.length)])
      else (st, [])
    else if pkt.seq < expected_seq then
      (st, [ackReply sport client_id expected_seq])
    else
      (st, [ackReply sport client_id expected_seq])

/-- `Server.handle_fin`: if the client is known, close its file (contents
persist on disk), reply with `ack = pkt.seq + 1, flags = FLAG_ACK`, and
delete the client's state. -/
def handle_fin (sport client_id : ℕ) (pkt : Packet) (st : ServerState) :
    ServerState × List Packet :=
  match st.clients client_id with
  | none => (st, [])
  | some _ =>
    ({ clients := fun q => if q = client_id then none else st.clients q,
       files := st.files },
     [{ src_port := sport, dst_port := client_id, seq := 0, ack := pkt.seq + 1,
        flags := FLAG_ACK, window := 1024 }])

/-- `Server.process_packet` (after a successful `Packet.unpack`): dispatch
on the flags, keyed by `client_id = pkt.src_port`. -/
def process_packet (sport : ℕ) (pkt : Packet) (st : ServerState) :
    ServerState × List Packet :=
  if pkt.flags &&& FLAG_SYN ≠ 0 then handle_syn sport pkt.src_port pkt st
  else if pkt.flags &&& FLAG_FIN ≠ 0 then handle_fin sport pkt.src_port pkt st
  else handle_data sport pkt.src_port pkt st

/-- Processing a list of packets in order, discarding the replies. -/
def process_list (sport : ℕ) (pkts : List Packet) (st : ServerState) :
    ServerState :=
  pkts.foldl (fun s p => (process_packet sport p s).1) st

/-- C10: the SYN handler performs no connection-phase check: from any prior
state whatsoever (including an established connection mid-transfer) it sets
the peer's `expected_seq` to `pkt.seq + 1` and truncates the peer's output
file, discarding all bytes written so far. -/
theorem handle_syn_reinitializes (sport client_id : ℕ) (pkt : Packet)
    (st : ServerState) :
    (handle_syn sport client_id pkt st).1.clients client_id = some (pkt.seq + 1) ∧
    (handle_syn sport client_id pkt st).1.files client_id = [] := by
  simp [handle_syn]

/-- A server state with one established client (port 7, `expected_seq`
101), used in concrete evaluations. -/
def estState : ServerState :=
  { clients := fun q => if q = 7 then some 101 else none, files := fun _ => [] }

/-- C4 counterexample: an in-order data packet (`seq = expected_seq = 101`)
with an empty payload receives no ACK at all (the reply list is empty), so
it is not the case that the receiver replies with exactly one ACK in all
three cases. -/
theorem handle_data_empty_inorder_no_ack :
    estState.clients 7 = some 101 ∧
    (handle_data 9999 7 ⟨7, 9999, 101, 0, FLAG_ACK, 1024, []⟩ estState).2 = [] := by
  constructor
  · rfl
  · rfl

/-- C4 (amended): for a data packet from an established client: in-order
with non-empty payload appends the payload, advances `expected_seq` by the
payload length and sends exactly one ACK carrying the new `expected_seq`;
in-order with empty payload changes nothing and sends nothing; any other
`seq` (duplicate or out-of-order) changes nothing and sends exactly one ACK
carrying the current `expected_seq`. -/
theorem handle_data_spec (sport client_id : ℕ) (pkt : Packet)
    (st : ServerState) (e : ℕ) (h : st.clients client_id = some e) :
    (pkt.seq = e → pkt.data ≠ [] →
      (handle_data sport client_id pkt st).1.clients client_id =
          some (e + pkt.data.length) ∧
      (handle_data sport client_id pkt st).1.files client_id =
          st.files client_id ++ pkt.data ∧
      (handle_data sport client_id pkt st).2 =
          [ackReply sport client_id (e + pkt.data.length)]) ∧
    (pkt.seq = e → pkt.data = [] →
      handle_data sport client_id pkt st = (st, [])) ∧
    (pkt.seq ≠ e →
      (handle_data sport client_id pkt st).1 = st ∧
      (handle_data sport client_id pkt st).2 = [ackReply sport client_id e]) := by
  refine ⟨?_, ?_, ?_⟩
  · intro hseq hdata
    have hlen : 0 < pkt.data.length := List.length_pos.mpr hdata
    simp [handle_data, h, hseq, hlen]
  · intro hseq hdata
    simp [handle_data, h, hseq, hdata]
  · intro hseq
    rcases Nat.lt_or_ge pkt.seq e with hlt | hge
    · simp [handle_data, h, hseq, hlt]
    · have hgt : ¬ pkt.seq < e := Nat.not_lt.mpr hge
      simp [handle_data, h, hseq, hgt]

/-- Witness for C4 (amended): the three cases evaluated at concrete packets
against `estState`. -/
theorem handle_data_spec_witness :
    ((handle_data 9999 7 ⟨7, 9999, 101, 0, FLAG_ACK, 1024, [5, 6]⟩ estState).1.clients 7 =
        some 103 ∧
      (handle_data 9999 7 ⟨7, 9999, 101, 0, FLAG_ACK, 1024, [5, 6]⟩ estState).1.files 7 =
        [5, 6] ∧
      (handle_data 9999 7 ⟨7, 9999, 101, 0, FLAG_ACK, 1024, [5, 6]⟩ estState).2 =
        [ackReply 9999 7 103]) ∧
    ((handle_data 9999 7 ⟨7, 9999, 55, 0, FLAG_ACK, 1024, [5]⟩ estState).1 = estState ∧
      (handle_data 9999 7 ⟨7, 9999, 55, 0, FLAG_ACK, 1024, [5]⟩ estState).2 =
        [ackReply 9999 7 101]) := by
  constructor
  · have h := (handle_data_spec 9999 7 ⟨7, 9999, 101, 0, FLAG_ACK, 1024, [5, 6]⟩
      estState 101 rfl).1 rfl (by decide)
    simpa using h
  · exact (handle_data_spec 9999 7 ⟨7, 9999, 55, 0, FLAG_ACK, 1024, [5]⟩
      estState 101 rfl).2.2 (by decide)

/-- The empty server state (no clients, all files empty). -/
def emptyServer : ServerState := { clients := fun _ => none, files := fun _ => [] }

/-- C8 counterexample: after a SYN (`seq = 100`) and an in-order data
packet of 3 bytes, the connection of port 7 has `expected_seq = 104`; a
further SYN with `seq = 0` — processed between the creation of the state
and its destruction (no FIN occurred) — resets it to `1 < 104`, so the
SYN handler can decrease `expected_seq`. -/
theorem expected_seq_syn_decrease :
    (process_list 9999 [⟨7, 9999, 100, 0, FLAG_SYN, 1024, []⟩,
        ⟨7, 9999, 101, 0, FLAG_ACK, 1024, [5, 6, 7]⟩] emptyServer).clients 7 =
      some 104 ∧
    (process_list 9999 [⟨7, 9999, 100, 0, FLAG_SYN, 1024, []⟩,
        ⟨7, 9999, 101, 0, FLAG_ACK, 1024, [5, 6, 7]⟩,
        ⟨7, 9999, 0, 0, FLAG_SYN, 1024, []⟩] emptyServer).clients 7 =
      some 1 ∧ (1 : ℕ) < 104 := by
  refine ⟨rfl, rfl, by norm_num⟩

/-- C8 (amended): processing any packet without the SYN flag (data or FIN)
never decreases a stored `expected_seq`: if a peer's state exists before
and after the packet, the stored `expected_seq` does not go down.  (A SYN
re-initializes the peer's state to `pkt.seq + 1`, which may be lower.) -/
theorem handle_data_clients (sport cid : ℕ) (pkt : Packet) (st : ServerState)
    (q : ℕ) :
    (handle_data sport cid pkt st).1.clients q = st.clients q ∨
    ∃ e0, st.clients cid = some e0 ∧ q = cid ∧
      (handle_data sport cid pkt st).1.clients q = some (e0 + pkt.data.length) := by
  cases hc : st.clients cid with
  | none => left; simp [handle_data, hc]
  | some e0 =>
    by_cases hseq : pkt.seq = e0
    · by_cases hlen : 0 < pkt.data.length
      · by_cases hq : q = cid
        · right
          exact ⟨e0, rfl, hq, by simp [handle_data, hc, hseq, hlen, hq]⟩
        · left
          simp [handle_data, hc, hseq, hlen, hq]
      · left
        simp [handle_data, hc, hseq, hlen]
    · left
      by_cases hlt : pkt.seq < e0 <;> simp [handle_data, hc, hseq, hlt]

theorem handle_fin_clients (sport cid : ℕ) (pkt : Packet) (st : ServerState)
    (q : ℕ) :
    (handle_fin sport cid pkt st).1.clients q = st.clients q ∨
    (handle_fin sport cid pkt st).1.clients q = none := by
  cases hc : st.clients cid with
  | none => left; simp [handle_fin, hc]
  | some e0 =>
    by_cases hq : q = cid
    · right; simp [handle_fin, hc, hq]
    · left; simp [handle_fin, hc, hq]

theorem expected_seq_monotone (sport : ℕ) (pkt : Packet) (st : ServerState)
    (q e e' : ℕ) (hsyn : pkt.flags &&& FLAG_SYN = 0)
    (h : st.clients q = some e)
    (h2 : (process_packet sport pkt st).1.clients q = some e') :
    e ≤ e' := by
  rw [process_packet, if_neg (by simp [hsyn])] at h2
  by_cases hfin : pkt.flags &&& FLAG_FIN ≠ 0
  · rw [if_pos hfin] at h2
    rcases handle_fin_clients sport pkt.src_port pkt st q with h3 | h3
    · rw [h3, h] at h2
      injection h2 with h4
      omega
    · rw [h3] at h2
      cases h2
  · rw [if_neg hfin] at h2
    rcases handle_data_clients sport pkt.src_port pkt st q with h3 | ⟨e0, hc, hq, h3⟩
    · rw [h3, h] at h2
      injection h2 with h4
      omega
    · rw [h3] at h2
      injection h2 with h4
      subst hq
      rw [h] at hc
      injection hc with h5
      omega

/-- Witness for C8 (amended): a concrete in-order data packet advances
`expected_seq` from 101 to 103, and `101 ≤ 103`. -/
theorem expected_seq_monotone_witness : (101 : ℕ) ≤ 103 :=
  expected_seq_monotone 9999 ⟨7, 9999, 101, 0, FLAG_ACK, 1024, [5, 6]⟩
    estState 7 101 103 (by decide) rfl rfl

/-! ## Sender (`py-med/client.py`) -/

/-- `seq_window[i]` as precomputed in `Client.transmit_file`: the sequence
number at which chunk `i` begins (`seq_window[0] = start_seq`,
`seq_window[i+1] = seq_window[i] + len(chunks[i])`). -/
def seqAt (start_seq : ℕ) (chunks : List (List ℕ)) (i : ℕ) : ℕ :=
  start_seq + ((chunks.take i).map List.length).sum

theorem seqAt_succ (s0 : ℕ) (chunks : List (List ℕ)) (i : ℕ)
    (h : i < chunks.length) :
    seqAt s0 chunks (i + 1) = seqAt s0 chunks i + (chunks.getD i []).length := by
  rw [seqAt, seqAt, List.take_succ]
  rw [List.getD_eq_getElem?_getD]
  cases hg : chunks[i]? with
  | none => simp [List.getElem?_eq_none_iff] at hg; omega
  | some c => simp [hg]; ring

theorem seqAt_mono (s0 : ℕ) (chunks : List (List ℕ)) {i j : ℕ} (h : i ≤ j) :
    seqAt s0 chunks i ≤ seqAt s0 chunks j := by
  rw [seqAt, seqAt]
  have htk : chunks.take i = (chunks.take j).take i := by
    rw [List.take_take, Nat.min_eq_left h]
  have hsub : List.Sublist ((chunks.take i).map List.length)
      ((chunks.take j).map List.length) := by
    rw [htk]
    exact List.Sublist.map _ (List.take_sublist i (chunks.take j))
  exact Nat.add_le_add_left (hsub.sum_le_sum (fun a _ => Nat.zero_le a)) s0

/-- `Client.perform_handshake`, with real time abstracted into the list of
successive results of `wait_for_packet` (one entry per loop iteration,
`none` for a 0.5 s receive timeout; the list is finite because the outer
`while` stops once the 10-second budget is spent).  A response is accepted
when `resp.flags & (FLAG_SYN | FLAG_ACK)` is non-zero and
`resp.ack == seq + 1` with `seq = 100`; its `ack` is returned as
`start_seq`.  Exhausting the budget raises `TimeoutError`, modelled as
`none`. -/
def perform_handshake : List (Option Packet) → Option ℕ
  | [] => none
  | r :: rs =>
    match r with
    | some resp =>
      if resp.flags &&& (FLAG_SYN ||| FLAG_ACK) ≠ 0 ∧ resp.ack = 100 + 1 then
        some resp.ack
      else perform_handshake rs
    | none => perform_handshake rs

/-- C2 counterexample: a response with only the ACK flag set (SYN clear)
and `ack = 101` is accepted by the handshake (the Python test
`resp.flags & (FLAG_SYN | FLAG_ACK)` is truthy when either flag is set),
contradicting the claim that a datagram with only one of the two flags is
never accepted. -/
theorem handshake_accepts_ack_only :
    (⟨9999, 40000, 0, 101, FLAG_ACK, 1024, []⟩ : Packet).flags &&& FLAG_SYN = 0 ∧
    perform_handshake [some ⟨9999, 40000, 0, 101, FLAG_ACK, 1024, []⟩] =
      some 101 := by
  exact ⟨rfl, rfl⟩

/-- C2 (amended): the handshake succeeds, returning `resp.ack = 101` as
`start_seq`, exactly on the first response whose flags contain *at least
one* of SYN and ACK and whose ack equals `S0 + 1 = 101`; a datagram with
neither flag set, or with ack different from 101, is never accepted; and
the handshake fails with the timeout error exactly when no response within
the budget is acceptable. -/
theorem perform_handshake_spec (rs : List (Option Packet)) :
    (perform_handshake rs = none ↔
      ∀ resp : Packet, some resp ∈ rs →
        ¬(resp.flags &&& (FLAG_SYN ||| FLAG_ACK) ≠ 0 ∧ resp.ack = 101)) ∧
    (∀ a, perform_handshake rs = some a →
      a = 101 ∧ ∃ resp : Packet, some resp ∈ rs ∧
        resp.flags &&& (FLAG_SYN ||| FLAG_ACK) ≠ 0 ∧ resp.ack = 101) := by
  induction rs with
  | nil => simp [perform_handshake]
  | cons r rs ih =>
    cases r with
    | none =>
      rw [perform_handshake]
      constructor
      · rw [ih.1]
        constructor
        · intro hall resp hmem
          rcases List.mem_cons.mp hmem with hmem | hmem
          · cases hmem
          · exact hall resp hmem
        · intro hall resp hmem
          exact hall resp (List.mem_cons_of_mem _ hmem)
      · intro a ha
        obtain ⟨h1, resp, h2, h3⟩ := ih.2 a ha
        exact ⟨h1, resp, List.mem_cons_of_mem _ h2, h3⟩
    | some resp0 =>
      rw [perform_handshake]
      by_cases hacc : resp0.flags &&& (FLAG_SYN ||| FLAG_ACK) ≠ 0 ∧ resp0.ack = 100 + 1
      · rw [if_pos hacc]
        constructor
        · constructor
          · intro hnone
            cases hnone
          · intro hall
            exact absurd hacc (by simpa using hall resp0 (List.mem_cons_self _ _))
        · intro a ha
          injection ha with ha0
          refine ⟨by omega, resp0, List.mem_cons_self _ _, hacc.1, by omega⟩
      · rw [if_neg hacc]
        constructor
        · rw [ih.1]
          constructor
          · intro hall resp hmem
            rcases List.mem_cons.mp hmem with hmem | hmem
            · injection hmem with hm
              subst hm
              simpa using hacc
            · exact hall resp hmem
          · intro hall resp hmem
            exact hall resp (List.mem_cons_of_mem _ hmem)
        · intro a ha
          obtain ⟨h1, resp, h2, h3⟩ := ih.2 a ha
          exact ⟨h1, resp, List.mem_cons_of_mem _ h2, h3⟩

/-- Witness for C2 (amended) at a concrete SYN-ACK response. -/
theorem perform_handshake_spec_witness :
    (101 : ℕ) = 101 ∧ ∃ resp : Packet,
      some resp ∈ [some (⟨9999, 40000, 0, 101, FLAG_SYN ||| FLAG_ACK, 1024, []⟩ : Packet)] ∧
      resp.flags &&& (FLAG_SYN ||| FLAG_ACK) ≠ 0 ∧ resp.ack = 101 :=
  (perform_handshake_spec
    [some (⟨9999, 40000, 0, 101, FLAG_SYN ||| FLAG_ACK, 1024, []⟩ : Packet)]).2
    101 rfl

/-- The window-advance loop in `Client.transmit_file`: while
`base_idx < len(chunks)` and `resp.ack ≥ chunk_end_seq` where
`chunk_end_seq = seq_window[base_idx] + len(chunks[base_idx])`, advance
`base_idx`, set `base_seq := chunk_end_seq`, and reset the retransmission
timer (`last_ack_time = time.time()`, modelled by the Boolean flag). -/
def advance_loop (chunks : List (List ℕ)) (start_seq ack : ℕ) :
    ℕ → ℕ → ℕ → Bool → ℕ × ℕ × Bool
  | 0, base_idx, base_seq, progressed => (base_idx, base_seq, progressed)
  | fuel + 1, base_idx, base_seq, progressed =>
    if base_idx < chunks.length then
      if seqAt start_seq chunks base_idx + (chunks.getD base_idx []).length ≤ ack then
        advance_loop chunks start_seq ack fuel (base_idx + 1)
          (seqAt start_seq chunks base_idx + (chunks.getD base_idx []).length) true
      else (base_idx, base_seq, progressed)
    else (base_idx, base_seq, progressed)

/-- The ACK-processing step in `Client.transmit_file`: a received ACK is
acted on only if `resp.ack > base_seq`, in which case the advance loop
runs (its iteration count is bounded by `chunks.length − base_idx`, passed
as exact fuel); otherwise `base_idx` and `base_seq` are unchanged and the
timer is not reset. -/
def ack_process (chunks : List (List ℕ)) (start_seq ack base_idx base_seq : ℕ) :
    ℕ × ℕ × Bool :=
  if base_seq < ack then
    advance_loop chunks start_seq ack (chunks.length - base_idx) base_idx base_seq
      false
  else (base_idx, base_seq, false)

theorem advance_loop_spec (chunks : List (List ℕ)) (s0 ack : ℕ) :
    ∀ (fuel base bseq : ℕ) (prog : Bool), chunks.length ≤ base + fuel →
    base ≤ (advance_loop chunks s0 ack fuel base bseq prog).1 ∧
    (base ≤ chunks.length →
      (advance_loop chunks s0 ack fuel base bseq prog).1 ≤ chunks.length) ∧
    (∀ i, base ≤ i → i < (advance_loop chunks s0 ack fuel base bseq prog).1 →
      seqAt s0 chunks (i + 1) ≤ ack) ∧
    ((advance_loop chunks s0 ack fuel base bseq prog).1 < chunks.length →
      ack < seqAt s0 chunks ((advance_loop chunks s0 ack fuel base bseq prog).1 + 1)) ∧
    ((advance_loop chunks s0 ack fuel base bseq prog).2.1 =
      if base < (advance_loop chunks s0 ack fuel base bseq prog).1 then
        seqAt s0 chunks (advance_loop chunks s0 ack fuel base bseq prog).1
      else bseq) ∧
    ((advance_loop chunks s0 ack fuel base bseq prog).2.2 =
      (prog || decide (base < (advance_loop chunks s0 ack fuel base bseq prog).1))) := by
  intro fuel
  induction fuel with
  | zero =>
    intro base bseq prog hfuel
    have hb : ¬ base < chunks.length := by omega
    rw [advance_loop]
    refine ⟨le_refl _, by intro h; omega, by omega, by intro h; omega, by simp,
      by simp⟩
  | succ m ih =>
    intro base bseq prog hfuel
    by_cases hb : base < chunks.length
    · rw [advance_loop, if_pos hb]
      by_cases hcov : seqAt s0 chunks base + (chunks.getD base []).length ≤ ack
      · rw [if_pos hcov]
        obtain ⟨r1, r2, r3, r4, r5, r6⟩ := ih (base + 1)
          (seqAt s0 chunks base + (chunks.getD base []).length) true (by omega)
        have hend : seqAt s0 chunks (base + 1) =
            seqAt s0 chunks base + (chunks.getD base []).length :=
          seqAt_succ s0 chunks base hb
        set A := advance_loop chunks s0 ack m (base + 1)
          (seqAt s0 chunks base + (chunks.getD base []).length) true with hA
        refine ⟨by omega, fun _ => r2 (by omega), ?_, r4, ?_, ?_⟩
        · intro i hi1 hi2
          by_cases hieq : i = base
          · subst hieq
            rw [hend]
            exact hcov
          · exact r3 i (by omega) hi2
        · rw [if_pos (show base < A.1 by omega), r5]
          by_cases hlt : base + 1 < A.1
          · rw [if_pos hlt]
          · rw [if_neg hlt]
            have h1 : A.1 = base + 1 := by omega
            rw [h1, hend]
        · have hblt : base < A.1 := by omega
          simp [r6, hblt]
      · rw [if_neg hcov]
        refine ⟨le_refl _, by intro h; omega, by omega, ?_, by simp, by simp⟩
        intro _
        rw [seqAt_succ s0 chunks base hb]
        omega
    · rw [advance_loop, if_neg hb]
      refine ⟨le_refl _, by intro h; omega, by omega, by intro h; omega, by simp,
        by simp⟩

theorem chunk_len_pos (chunks : List (List ℕ)) (hne : ∀ ch ∈ chunks, ch ≠ [])
    (i : ℕ) (h : i < chunks.length) : 0 < (chunks.getD i []).length := by
  rw [List.getD_eq_getElem?_getD, List.getElem?_eq_getElem h]
  have hmem : chunks[i] ∈ chunks := List.getElem_mem h
  have := hne _ hmem
  simp only [Option.getD_some]
  exact List.length_pos.mpr this

/-- C5: the ACK-processing step of `Client.transmit_file`, for a state with
`base_seq` consistent with `base_idx` (as `transmit_file` maintains) and
non-empty chunks (as `read_file_chunks` produces).  Writing `(base_idx',
base_seq', reset)` for the result: an ACK with `ack ≤ base_seq` changes
nothing; `base_idx` advances over exactly those chunks `i` whose end
sequence `seq_window[i] + len(chunks[i])` is at most `ack`; `base_seq'` is
the start sequence of chunk `base_idx'` (the cumulative end of the last
fully covered chunk); the retransmission timer is reset precisely when the
window advanced, which requires `ack > base_seq`; and an ACK covering no
full chunk boundary beyond `base_seq` leaves `base_idx` and `base_seq`
unchanged. -/
theorem ack_process_spec (chunks : List (List ℕ)) (s0 ack base bseq : ℕ)
    (hne : ∀ ch ∈ chunks, ch ≠ []) (hb : bseq = seqAt s0 chunks base)
    (hlen : base ≤ chunks.length) :
    (ack ≤ bseq → ack_process chunks s0 ack base bseq = (base, bseq, false)) ∧
    (∀ i, (base ≤ i ∧ i < (ack_process chunks s0 ack base bseq).1) ↔
      (base ≤ i ∧ i < chunks.length ∧ seqAt s0 chunks (i + 1) ≤ ack)) ∧
    ((ack_process chunks s0 ack base bseq).2.1 =
      seqAt s0 chunks (ack_process chunks s0 ack base bseq).1) ∧
    ((ack_process chunks s0 ack base bseq).2.2 = true ↔
      base < (ack_process chunks s0 ack base bseq).1) ∧
    ((ack_process chunks s0 ack base bseq).2.2 = true → bseq < ack) ∧
    ((¬ ∃ i, base ≤ i ∧ i < chunks.length ∧ seqAt s0 chunks (i + 1) ≤ ack) →
      (ack_process chunks s0 ack base bseq).1 = base ∧
      (ack_process chunks s0 ack base bseq).2.1 = bseq) := by
  by_cases hgt : bseq < ack
  · rw [ack_process, if_pos hgt]
    obtain ⟨r1, r2, r3, r4, r5, r6⟩ :=
      advance_loop_spec chunks s0 ack (chunks.length - base) base bseq false (by omega)
    set A := advance_loop chunks s0 ack (chunks.length - base) base bseq false with hA
    have hAlen : A.1 ≤ chunks.length := r2 hlen
    have hiff : ∀ i, (base ≤ i ∧ i < A.1) ↔
        (base ≤ i ∧ i < chunks.length ∧ seqAt s0 chunks (i + 1) ≤ ack) := by
      intro i
      constructor
      · rintro ⟨hi1, hi2⟩
        exact ⟨hi1, by omega, r3 i hi1 hi2⟩
      · rintro ⟨hi1, hi2, hi3⟩
        refine ⟨hi1, ?_⟩
        by_contra hcon
        have hA1 : A.1 ≤ i := by omega
        have hA2 : A.1 < chunks.length := by omega
        have := r4 hA2
        have := seqAt_mono s0 chunks (show A.1 + 1 ≤ i + 1 by omega)
        omega
    refine ⟨by omega, hiff, ?_, ?_, fun _ => hgt, ?_⟩
    · rw [r5]
      by_cases hlt : base < A.1
      · rw [if_pos hlt]
      · rw [if_neg hlt]
        have h1 : A.1 = base := by omega
        rw [h1, ← hb]
    · rw [r6]
      simp
    · intro hnone
      have hA1 : A.1 = base := by
        by_contra hcon
        exact hnone ⟨base, (hiff base).mp ⟨le_refl _, by omega⟩⟩
      refine ⟨hA1, ?_⟩
      rw [r5, hA1, if_neg (lt_irrefl base)]
  · rw [ack_process, if_neg hgt]
    have hnocov : ∀ i, base ≤ i → i < chunks.length →
        ¬ seqAt s0 chunks (i + 1) ≤ ack := by
      intro i hi1 hi2 hcon
      have h1 : seqAt s0 chunks i + (chunks.getD i []).length =
          seqAt s0 chunks (i + 1) := (seqAt_succ s0 chunks i hi2).symm
      have h2 := seqAt_mono s0 chunks hi1
      have h3 := chunk_len_pos chunks hne i hi2
      omega
    refine ⟨fun _ => rfl, ?_, by simpa using hb, by simp, by simp, fun _ => ⟨rfl, rfl⟩⟩
    intro i
    simp only [Prod.fst]
    constructor
    · rintro ⟨hi1, hi2⟩
      omega
    · rintro ⟨hi1, hi2, hi3⟩
      exact absurd hi3 (hnocov i hi1 hi2)

/-- Witness for C5: a concrete ACK covering the first of two chunks. -/
theorem ack_process_spec_witness :
    (ack_process [[1, 2], [3]] 101 103 0 101).2.1 =
      seqAt 101 [[1, 2], [3]] (ack_process [[1, 2], [3]] 101 103 0 101).1 :=
  (ack_process_spec [[1, 2], [3]] 101 103 0 101 (by decide) (by decide)
    (by decide)).2.2.1

theorem ack_process_bounds (chunks : List (List ℕ)) (s0 ackv base bseq n : ℕ)
    (hne : ∀ ch ∈ chunks, ch ≠ []) (hlb : base ≤ chunks.length)
    (hbn : base ≤ n) (henv : ackv ≤ seqAt s0 chunks n) :
    base ≤ (ack_process chunks s0 ackv base bseq).1 ∧
    (ack_process chunks s0 ackv base bseq).1 ≤ n ∧
    (ack_process chunks s0 ackv base bseq).1 ≤ chunks.length := by
  by_cases hgt : bseq < ackv
  · rw [ack_process, if_pos hgt]
    obtain ⟨r1, r2, r3, r4, r5, r6⟩ :=
      advance_loop_spec chunks s0 ackv (chunks.length - base) base bseq false (by omega)
    set A := advance_loop chunks s0 ackv (chunks.length - base) base bseq false with hA
    have hAlen : A.1 ≤ chunks.length := r2 hlb
    refine ⟨r1, ?_, hAlen⟩
    by_contra hcon
    have hnA : n < A.1 := by omega
    have hnlen : n < chunks.length := by omega
    have hcov := r3 n hbn hnA
    have hstep : seqAt s0 chunks (n + 1) =
        seqAt s0 chunks n + (chunks.getD n []).length := seqAt_succ s0 chunks n hnlen
    have hpos := chunk_len_pos chunks hne n hnlen
    omega
  · rw [ack_process, if_neg hgt]
    exact ⟨le_refl _, hbn, hlb⟩

/-- State of the send loop in `Client.transmit_file`. -/
structure LoopState where
  base_idx : ℕ
  next_idx : ℕ
  base_seq : ℕ
  deriving Repr, DecidableEq

/-- One event of the send loop in `Client.transmit_file`: transmitting one
chunk (guarded by `next_idx < total_chunks` and
`next_idx < base_idx + WINDOW_SIZE`), processing a received ACK, or the
Go-Back-N timeout reset `next_idx := base_idx`.  The hypothesis `henv` on
the ACK event is the environment assumption that an incoming ACK never
exceeds the sequence number of the first unsent byte — the receiver only
acknowledges data it was sent. -/
inductive LoopStep (chunks : List (List ℕ)) (s0 : ℕ) :
    LoopState → LoopState → Prop
  | send (b n s : ℕ) (h1 : n < chunks.length) (h2 : n < b + WINDOW_SIZE) :
      LoopStep chunks s0 ⟨b, n, s⟩ ⟨b, n + 1, s⟩
  | ack (b n s ackv : ℕ) (henv : ackv ≤ seqAt s0 chunks n) :
      LoopStep chunks s0 ⟨b, n, s⟩
        ⟨(ack_process chunks s0 ackv b s).1, n,
          (ack_process chunks s0 ackv b s).2.1⟩
  | timeout (b n s : ℕ) : LoopStep chunks s0 ⟨b, n, s⟩ ⟨b, b, s⟩

/-- The states the transmit loop can reach from `base_idx = next_idx = 0`
with `base_seq = start_seq`. -/
def LoopReachable (chunks : List (List ℕ)) (s0 : ℕ) (st : LoopState) : Prop :=
  Relation.ReflTransGen (LoopStep chunks s0) ⟨0, 0, s0⟩ st

/-- C3: in every reachable state of the sender's transmit loop,
`base_idx ≤ next_idx` and `next_idx − base_idx ≤ WINDOW_SIZE = 5`; the
bound is preserved by the send step, the ACK-advance step and the
Go-Back-N timeout reset.  The chunks are non-empty (as produced by
`read_file_chunks`) and incoming ACKs are bounded by the first unsent
sequence number (see `LoopStep.ack`). -/
theorem window_bound (chunks : List (List ℕ)) (s0 : ℕ)
    (hne : ∀ ch ∈ chunks, ch ≠ []) (st : LoopState)
    (h : LoopReachable chunks s0 st) :
    st.base_idx ≤ st.next_idx ∧ st.next_idx - st.base_idx ≤ WINDOW_SIZE := by
  have main : st.base_idx ≤ st.next_idx ∧
      st.next_idx ≤ st.base_idx + WINDOW_SIZE ∧
      st.base_idx ≤ chunks.length := by
    induction h with
    | refl => exact ⟨le_refl _, by simp, Nat.zero_le _⟩
    | tail hsteps hstep ih =>
      cases hstep with
      | send b n s h1 h2 =>
        dsimp only at ih ⊢
        omega
      | ack b n s ackv henv =>
        dsimp only at ih ⊢
        obtain ⟨i1, i2, i3⟩ := ih
        obtain ⟨a1, a2, a3⟩ :=
          ack_process_bounds chunks s0 ackv b s n hne i3 i1 henv
        omega
      | timeout b n s =>
        dsimp only at ih ⊢
        omega
  exact ⟨main.1, by have := main.2.1; omega⟩

/-- Witness for C3 at a concrete reachable state (one chunk sent). -/
theorem window_bound_witness :
    (⟨0, 1, 101⟩ : LoopState).base_idx ≤ (⟨0, 1, 101⟩ : LoopState).next_idx ∧
    (⟨0, 1, 101⟩ : LoopState).next_idx - (⟨0, 1, 101⟩ : LoopState).base_idx ≤
      WINDOW_SIZE :=
  window_bound [[1]] 101 (by decide) ⟨0, 1, 101⟩
    (Relation.ReflTransGen.single (LoopStep.send 0 0 101 (by decide) (by decide)))

/-! ## Network mediator (`py-med/net.py`)

Simulation parameters, and `NetDaemon.handle_simulation_and_forward`.
Randomness is made explicit: the Python code draws `random.random()` once
per trial, lazily, in the fixed order drop → duplicate → delay, and
`random.uniform(MIN_DELAY, MAX_DELAY)` for the delay amount; the
corresponding unit draws are passed in as rationals. -/

def DROP_PROBABILITY : ℚ := 1 / 10

def DUPLICATE_PROBABILITY : ℚ := 1 / 10

def DELAY_PROBABILITY : ℚ := 1 / 10

def MIN_DELAY : ℚ := 1 / 2

def MAX_DELAY : ℚ := 2

/-- `random.uniform(a, b)` applied to a unit draw `r`. -/
def uniform (a b r : ℚ) : ℚ := a + r * (b - a)

/-- `NetDaemon.handle_simulation_and_forward`: drop the datagram, or send it
twice immediately (the duplicate bypasses the simulation checks — the code
calls raw `send_packet` twice), or append it to `delayed_packets` with
delivery time `now + uniform(MIN_DELAY, MAX_DELAY)`, or forward it once.
Returns the datagrams sent immediately and the delay-queue entries added. -/
def handle_simulation_and_forward (r_drop r_dup r_delay r_u now : ℚ)
    (data : List ℕ) (target_addr : ℕ) :
    List (List ℕ × ℕ) × List (ℚ × List ℕ × ℕ) :=
  if r_drop < DROP_PROBABILITY then ([], [])
  else if r_dup < DUPLICATE_PROBABILITY then
    ([(data, target_addr), (data, target_addr)], [])
  else if r_delay < DELAY_PROBABILITY then
    ([], [(now + uniform MIN_DELAY MAX_DELAY r_u, data, target_addr)])
  else ([(data, target_addr)], [])

/-- C6: the three trials are evaluated in the fixed order drop → duplicate
→ delay with short-circuit semantics: a firing drop trial discards the
datagram and nothing is sent; otherwise a firing duplicate trial sends the
datagram exactly twice immediately, and the outcome is independent of the
delay draws (the duplicate is not subjected to further loss/delay trials);
otherwise a firing delay trial enqueues the datagram for delivery at
`now + U(MIN_DELAY, MAX_DELAY)` and nothing is sent now; otherwise the
datagram is forwarded exactly once immediately. -/
theorem handle_simulation_spec (r_drop r_dup r_delay r_u now : ℚ)
    (data : List ℕ) (addr : ℕ) :
    (r_drop < DROP_PROBABILITY →
      handle_simulation_and_forward r_drop r_dup r_delay r_u now data addr =
        ([], [])) ∧
    (¬ r_drop < DROP_PROBABILITY → r_dup < DUPLICATE_PROBABILITY →
      handle_simulation_and_forward r_drop r_dup r_delay r_u now data addr =
        ([(data, addr), (data, addr)], []) ∧
      ∀ s_delay s_u : ℚ,
        handle_simulation_and_forward r_drop r_dup s_delay s_u now data addr =
          handle_simulation_and_forward r_drop r_dup r_delay r_u now data addr) ∧
    (¬ r_drop < DROP_PROBABILITY → ¬ r_dup < DUPLICATE_PROBABILITY →
      r_delay < DELAY_PROBABILITY →
      handle_simulation_and_forward r_drop r_dup r_delay r_u now data addr =
        ([], [(now + uniform MIN_DELAY MAX_DELAY r_u, data, addr)])) ∧
    (¬ r_drop < DROP_PROBABILITY → ¬ r_dup < DUPLICATE_PROBABILITY →
      ¬ r_delay < DELAY_PROBABILITY →
      handle_simulation_and_forward r_drop r_dup r_delay r_u now data addr =
        ([(data, addr)], [])) := by
  refine ⟨?_, ?_, ?_, ?_⟩
  · intro h1
    rw [handle_simulation_and_forward, if_pos h1]
  · intro h1 h2
    rw [handle_simulation_and_forward, if_neg h1, if_pos h2]
    refine ⟨rfl, ?_⟩
    intro s_delay s_u
    rw [handle_simulation_and_forward, if_neg h1, if_pos h2]
  · intro h1 h2 h3
    rw [handle_simulation_and_forward, if_neg h1, if_neg h2, if_pos h3]
  · intro h1 h2 h3
    rw [handle_simulation_and_forward, if_neg h1, if_neg h2, if_neg h3]

/-- Witness for C6: concrete draws exercising the duplicate branch. -/
theorem handle_simulation_spec_witness :
    handle_simulation_and_forward (1/2) (1/20) 0 0 0 [7] 9999 =
      ([([7], 9999), ([7], 9999)], []) ∧
    ∀ s_delay s_u : ℚ,
      handle_simulation_and_forward (1/2) (1/20) s_delay s_u 0 [7] 9999 =
        handle_simulation_and_forward (1/2) (1/20) 0 0 0 [7] 9999 :=
  (handle_simulation_spec (1/2) (1/20) 0 0 0 [7] 9999).2.1
    (by norm_num [DROP_PROBABILITY]) (by norm_num [DUPLICATE_PROBABILITY])

/-! ## Whole-system model (C1)

The three processes composed: sender (`py-med/client.py`), mediator
(`py-med/net.py`) and receiver (`py-med/server.py`).  The mediator and the
UDP sockets are abstracted into two in-flight pools: `toR` (datagrams
routed to the receiver) and `toS` (to the sender).  An adversarial
scheduler chooses which in-flight datagram is delivered next and may drop
or duplicate any of them; this over-approximates every interleaving and
every outcome of the mediator's drop/duplicate/delay trials (a delayed
datagram is one delivered late, a dropped one is removed, a duplicated one
occurs twice).  The sender's timers (SYN retransmission every 0.5 s, the
50 ms ACK poll, the 0.5 s Go-Back-N timeout, the five FIN attempts) are
likewise scheduler choices.  Datagrams travel as `Packet` values, which by
the codec round-trip `unpack_pack` is faithful to the byte encoding. -/

/-- The sender's ephemeral virtual port (`self.port` in `Client`). -/
def cport : ℕ := 40000

/-- The receiver's virtual port (`--port`, default 9999). -/
def sport : ℕ := 9999

/-- The sender's control state: the handshake loop of `perform_handshake`;
the transmit loop of `transmit_file` carrying `start_seq`, `base_idx`,
`next_idx` and `base_seq`; the teardown loop of `perform_teardown`
carrying `final_seq` (the `base_seq` returned by `transmit_file`); normal
completion; or handshake failure (`TimeoutError`). -/
inductive SPhase where
  | shake
  | data (s0 base_idx next_idx base_seq : ℕ)
  | closing (final_seq : ℕ)
  | finished
  | failed
  deriving Repr, DecidableEq

/-- The composed system: the sender's phase, the receiver's state, and the
two in-flight datagram pools. -/
structure Sys where
  phase : SPhase
  recv : ServerState
  toR : List Packet
  toS : List Packet

/-- The SYN packet built in `Client.perform_handshake` (`seq = 100`). -/
def synPkt : Packet := ⟨cport, sport, 100, 0, FLAG_SYN, 1024, []⟩

/-- The data packet for chunk `n` built in `Client.transmit_file`
(`seq = seq_window[n]`, `flags = FLAG_ACK`, payload the chunk). -/
def dataPkt (chunks : List (List ℕ)) (s0 n : ℕ) : Packet :=
  ⟨cport, sport, seqAt s0 chunks n, 0, FLAG_ACK, 1024, chunks.getD n []⟩

/-- The FIN packet built in `Client.perform_teardown`
(`seq = final_seq`). -/
def finPkt (fseq : ℕ) : Packet := ⟨cport, sport, fseq, 0, FLAG_FIN, 1024, []⟩

/-- The sender's reaction to a received datagram, by phase: the acceptance
check of `perform_handshake` (returning `resp.ack` as `start_seq`, with
`base_idx = next_idx = 0` and `base_seq = start_seq`); the ACK check and
window advance of `transmit_file`; the FIN-ACK check of
`perform_teardown`.  A datagram failing the check is consumed without
effect. -/
def senderRecv (chunks : List (List ℕ)) (ph : SPhase) (p : Packet) : SPhase :=
  match ph with
  | .shake =>
    if p.flags &&& (FLAG_SYN ||| FLAG_ACK) ≠ 0 ∧ p.ack = 100 + 1 then
      .data p.ack 0 0 p.ack
    else .shake
  | .data s0 b n s =>
    if p.flags &&& FLAG_ACK ≠ 0 then
      .data s0 (ack_process chunks s0 p.ack b s).1 n
        (ack_process chunks s0 p.ack b s).2.1
    else ph
  | .closing f =>
    if p.flags &&& FLAG_ACK ≠ 0 ∧ p.ack = f + 1 then .finished else ph
  | .finished => ph
  | .failed => ph

/-- A scheduled event of the composed system. -/
inductive Act where
  | synSend
  | sRecv (i : ℕ)
  | shakeFail
  | dataSend
  | dataTimeout
  | dataComplete
  | finSend
  | finGiveUp
  | rDeliver (i : ℕ)
  | netDropR (i : ℕ)
  | netDropS (i : ℕ)
  | netDupR (i : ℕ)
  | netDupS (i : ℕ)
  deriving Repr, DecidableEq

/-- One event of the composed system; `none` when the event is not enabled
in the current state. -/
def sysStep (chunks : List (List ℕ)) (s : Sys) (a : Act) : Option Sys :=
  match a with
  | .synSend =>
    match s.phase with
    | .shake => some { s with toR := s.toR ++ [synPkt] }
    | _ => none
  | .sRecv i =>
    match s.toS.get? i with
    | some p => some { s with phase := senderRecv chunks s.phase p,
                              toS := s.toS.eraseIdx i }
    | none => none
  | .shakeFail =>
    match s.phase with
    | .shake => some { s with phase := .failed }
    | _ => none
  | .dataSend =>
    match s.phase with
    | .data s0 b n bs =>
      if n < chunks.length ∧ n < b + WINDOW_SIZE then
        some { s with phase := .data s0 b (n + 1) bs,
                      toR := s.toR ++ [dataPkt chunks s0 n] }
      else none
    | _ => none
  | .dataTimeout =>
    match s.phase with
    | .data s0 b _ bs => some { s with phase := .data s0 b b bs }
    | _ => none
  | .dataComplete =>
    match s.phase with
    | .data _ b _ bs =>
      if b = chunks.length then some { s with phase := .closing bs } else none
    | _ => none
  | .finSend =>
    match s.phase with
    | .closing f => some { s with toR := s.toR ++ [finPkt f] }
    | _ => none
  | .finGiveUp =>
    match s.phase with
    | .closing _ => some { s with phase := .finished }
    | _ => none
  | .rDeliver i =>
    match s.toR.get? i with
    | some p => some { s with recv := (process_packet sport p s.recv).1,
                              toR := s.toR.eraseIdx i,
                              toS := s.toS ++ (process_packet sport p s.recv).2 }
    | none => none
  | .netDropR i =>
    if i < s.toR.length then some { s with toR := s.toR.eraseIdx i } else none
  | .netDropS i =>
    if i < s.toS.length then some { s with toS := s.toS.eraseIdx i } else none
  | .netDupR i =>
    match s.toR.get? i with
    | some p => some { s with toR := s.toR ++ [p] }
    | none => none
  | .netDupS i =>
    match s.toS.get? i with
    | some p => some { s with toS := s.toS ++ [p] }
    | none => none

/-- Run a schedule from a state. -/
def runSys (chunks : List (List ℕ)) : Sys → List Act → Option Sys
  | s, [] => some s
  | s, a :: rest =>
    match sysStep chunks s a with
    | some t => runSys chunks t rest
    | none => none

/-- The initial system state: sender about to handshake, receiver freshly
started, nothing in flight. -/
def sysInit : Sys := ⟨.shake, emptyServer, [], []⟩

/-- A schedule in which the transfer of the one-chunk file `[7]` completes
(handshake, data, teardown all succeed), but a retransmitted SYN — sent
because the first SYN-ACK had not yet arrived, then delayed by the
mediator — reaches the receiver after the FIN: `handle_syn`
unconditionally re-opens `data/<port>.in` with truncation. -/
def lateSynSchedule : List Act :=
  [.synSend, .rDeliver 0, .synSend, .sRecv 0, .dataSend, .rDeliver 1, .sRecv 0,
   .dataComplete, .finSend, .rDeliver 1, .sRecv 0, .rDeliver 0]

/-- C1 counterexample: under `lateSynSchedule` the sender completes
handshake, data transfer and teardown (phase `finished`), yet the
receiver's output file `data/<src_port>.in` ends up empty while the
sender's input file is `[7]` — the transfer completes but the files
differ. -/
theorem transfer_completes_file_differs :
    (runSys [[7]] sysInit lateSynSchedule).map
        (fun s => (s.phase, s.recv.files cport)) = some (.finished, []) ∧
    ([[7]] : List (List ℕ)).flatten = [7] ∧ ([] : List ℕ) ≠ [7] := by
  refine ⟨rfl, rfl, by simp⟩

/-! Auxiliary facts about chunked byte streams: the flattened file, dropped
at the cumulative size of the first `n` chunks, starts with chunk `n`. -/

theorem flatten_drop_sizes (chunks : List (List ℕ)) :
    ∀ n : ℕ, chunks.flatten.drop (((chunks.take n).map List.length).sum) =
      (chunks.drop n).flatten := by
  induction chunks with
  | nil => intro n; simp
  | cons c cs ih =>
    intro n
    cases n with
    | zero => simp
    | succ m =>
      simp only [List.take_succ_cons, List.map_cons, List.sum_cons,
        List.drop_succ_cons, List.flatten_cons]
      rw [← List.drop_drop, List.drop_left]
      exact ih m

theorem chunk_slice (chunks : List (List ℕ)) (n : ℕ) (h : n < chunks.length) :
    (chunks.flatten.drop (((chunks.take n).map List.length).sum)).take
      (chunks.getD n []).length = chunks.getD n [] := by
  rw [flatten_drop_sizes chunks n, List.drop_eq_getElem_cons h, List.flatten_cons]
  rw [List.getD_eq_getElem?_getD, List.getElem?_eq_getElem h, Option.getD_some]
  exact List.take_left _ _

theorem sizes_total (chunks : List (List ℕ)) :
    ((chunks.take chunks.length).map List.length).sum = chunks.flatten.length := by
  rw [List.take_length, List.length_flatten]

/-- Whether the sender may already have transmitted data (it has left the
handshake phase and did not fail). -/
def phaseSent : SPhase → Prop
  | .data _ _ _ _ => True
  | .closing _ => True
  | .finished => True
  | _ => False

/-- Whether the sender has completed data transfer (teardown begun or
done). -/
def phaseFin : SPhase → Prop
  | .closing _ => True
  | .finished => True
  | _ => False

/-- Invariant on datagrams in flight to the receiver: they were sent by the
sender (`src_port = cport`) and are one of its three packet shapes: a SYN
with `seq = 100`; a data packet (flags exactly `FLAG_ACK`) whose payload is
the slice of the input file starting at `seq − 101`, only present once the
sender reached its data phase; or a FIN with `seq = 101 + |file|`, only
present once teardown began. -/
def ROk (chunks : List (List ℕ)) (ph : SPhase) (p : Packet) : Prop :=
  p.src_port = cport ∧
  ((p.flags = FLAG_SYN ∧ p.seq = 100) ∨
   (p.flags = FLAG_ACK ∧ phaseSent ph ∧ 101 ≤ p.seq ∧
     p.data = (chunks.flatten.drop (p.seq - 101)).take p.data.length) ∨
   (p.flags = FLAG_FIN ∧ phaseFin ph ∧ p.seq = 101 + chunks.flatten.length))

/-- Invariant on datagrams in flight to the sender, as a function of the
sender's phase and the current length of the receiver's output file:
during the handshake every reply carries `ack = 101`; during data transfer
every reply's `ack` is bounded by `101 +` the number of bytes the receiver
has written. -/
def SOk (ph : SPhase) (filelen : ℕ) (p : Packet) : Prop :=
  match ph with
  | .shake => p.ack = 101
  | .data _ _ _ _ => p.ack ≤ 101 + filelen
  | _ => True

/-- Phase-dependent part of the system invariant. -/
def PhaseOk (chunks : List (List ℕ)) (s : Sys) : Prop :=
  match s.phase with
  | .shake => True
  | .data s0 base _ bseq =>
      s0 = 101 ∧ bseq = seqAt 101 chunks base ∧ base ≤ chunks.length ∧
      bseq ≤ 101 + (s.recv.files cport).length
  | .closing f =>
      f = 101 + chunks.flatten.length ∧ s.recv.files cport = chunks.flatten
  | .finished => s.recv.files cport = chunks.flatten
  | .failed => True

/-- The system invariant: the receiver's output file is a prefix of the
input file; an established connection expects exactly the next byte after
what was written; all in-flight datagrams are well-formed for the current
phase; and the sender's phase data is consistent. -/
structure SysInv (chunks : List (List ℕ)) (s : Sys) : Prop where
  hfile : s.recv.files cport =
    chunks.flatten.take (s.recv.files cport).length
  hconn : ∀ e, s.recv.clients cport = some e →
    e = 101 + (s.recv.files cport).length
  htoR : ∀ p ∈ s.toR, ROk chunks s.phase p
  htoS : ∀ p ∈ s.toS, SOk s.phase (s.recv.files cport).length p
  hphase : PhaseOk chunks s

/-- The amended claim's proviso, per event: a SYN-flagged datagram reaches
the receiver only while the sender is still in its handshake phase. -/
def OkAct (s : Sys) (a : Act) : Prop :=
  match a with
  | .rDeliver i => ∀ p, s.toR.get? i = some p → p.flags &&& FLAG_SYN ≠ 0 →
      s.phase = SPhase.shake
  | _ => True

/-- A run of the composed system all of whose events satisfy `OkAct`. -/
inductive RunOk (chunks : List (List ℕ)) : Sys → List Act → Sys → Prop
  | nil (s : Sys) : RunOk chunks s [] s
  | cons (s t u : Sys) (a : Act) (rest : List Act) (hok : OkAct s a)
      (hstep : sysStep chunks s a = some t) (hrun : RunOk chunks t rest u) :
      RunOk chunks s (a :: rest) u

theorem handle_data_none (sport cid : ℕ) (pkt : Packet) (st : ServerState)
    (hc : st.clients cid = none) : handle_data sport cid pkt st = (st, []) := by
  rw [handle_data, hc]

theorem handle_data_some (sport cid : ℕ) (pkt : Packet) (st : ServerState)
    (e : ℕ) (hc : st.clients cid = some e) :
    handle_data sport cid pkt st =
      if pkt.seq = e then
        if 0 < pkt.data.length then
          ({ clients := fun q =>
               if q = cid then some (e + pkt.data.length) else st.clients q,
             files := fun q =>
               if q = cid then st.files q ++ pkt.data else st.files q },
           [ackReply sport cid (e + pkt.data.length)])
        else (st, [])
      else if pkt.seq < e then (st, [ackReply sport cid e])
      else (st, [ackReply sport cid e]) := by
  rw [handle_data, hc]

theorem handle_fin_none (sport cid : ℕ) (pkt : Packet) (st : ServerState)
    (hc : st.clients cid = none) : handle_fin sport cid pkt st = (st, []) := by
  rw [handle_fin, hc]

theorem handle_fin_some (sport cid : ℕ) (pkt : Packet) (st : ServerState)
    (e : ℕ) (hc : st.clients cid = some e) :
    handle_fin sport cid pkt st =
      ({ clients := fun q => if q = cid then none else st.clients q,
         files := st.files },
       [{ src_port := sport, dst_port := cid, seq := 0, ack := pkt.seq + 1,
          flags := FLAG_ACK, window := 1024 }]) := by
  rw [handle_fin, hc]

/-- Delivering one well-formed datagram to the receiver preserves the
receiver-side invariant: the file stays a prefix of the input, the
connection's `expected_seq` stays `101 + |file|`, every reply satisfies
`SOk`, and away from the handshake phase the file never shrinks. -/
theorem rdeliver_preserves (chunks : List (List ℕ)) (ph : SPhase)
    (rec : ServerState) (p : Packet) (hp : ROk chunks ph p)
    (hsyn : p.flags &&& FLAG_SYN ≠ 0 → ph = SPhase.shake)
    (hfile : rec.files cport = chunks.flatten.take (rec.files cport).length)
    (hconn : ∀ e, rec.clients cport = some e →
      e = 101 + (rec.files cport).length) :
    ((process_packet sport p rec).1.files cport =
      chunks.flatten.take ((process_packet sport p rec).1.files cport).length) ∧
    (∀ e, (process_packet sport p rec).1.clients cport = some e →
      e = 101 + ((process_packet sport p rec).1.files cport).length) ∧
    (∀ q ∈ (process_packet sport p rec).2,
      SOk ph ((process_packet sport p rec).1.files cport).length q) ∧
    (ph ≠ SPhase.shake →
      (rec.files cport).length ≤
        ((process_packet sport p rec).1.files cport).length) := by
  obtain ⟨hsrc, hkind⟩ := hp
  rcases hkind with ⟨hfl, hseq⟩ | ⟨hfl, hsent, hseq, hdata⟩ | ⟨hfl, hfin, hseq⟩
  · -- SYN
    have hph : ph = SPhase.shake := hsyn (by rw [hfl]; decide)
    rw [process_packet, if_pos (show p.flags &&& FLAG_SYN ≠ 0 by rw [hfl]; decide),
      hsrc]
    refine ⟨by simp [handle_syn], ?_, ?_, ?_⟩
    · intro e he
      simp [handle_syn] at he ⊢
      omega
    · intro q hq
      simp [handle_syn] at hq
      subst hq
      rw [hph]
      simp [SOk, hseq]
    · intro hne
      exact absurd hph hne
  · -- data
    rw [process_packet,
      if_neg (show ¬ p.flags &&& FLAG_SYN ≠ 0 by rw [hfl]; decide),
      if_neg (show ¬ p.flags &&& FLAG_FIN ≠ 0 by rw [hfl]; decide), hsrc]
    cases hc : rec.clients cport with
    | none =>
      rw [handle_data_none sport cport p rec hc]
      refine ⟨hfile, hconn, ?_, fun _ => le_refl _⟩
      intro q hq
      exact absurd hq (List.not_mem_nil q)
    | some e =>
      have he : e = 101 + (rec.files cport).length := hconn e hc
      rw [handle_data_some sport cport p rec e hc]
      by_cases hseqe : p.seq = e
      · rw [if_pos hseqe]
        by_cases hdl : 0 < p.data.length
        · -- in-order, non-empty: append
          rw [if_pos hdl]
          have hdrop : p.seq - 101 = (rec.files cport).length := by omega
          rw [hdrop] at hdata
          have hdlen : p.data.length ≤
              chunks.flatten.length - (rec.files cport).length := by
            have hcg := congrArg List.length hdata
            rw [List.length_take, List.length_drop] at hcg
            omega
          have hnew : rec.files cport ++ p.data =
              chunks.flatten.take
                ((rec.files cport).length + p.data.length) := by
            rw [List.take_add, ← hdata, ← hfile]
          refine ⟨?_, ?_, ?_, ?_⟩
          · show rec.files cport ++ p.data =
              chunks.flatten.take (rec.files cport ++ p.data).length
            rw [List.length_append]
            exact hnew
          · intro e2 he2
            have he2b : (if cport = cport then some (e + p.data.length)
                else rec.clients cport) = some e2 := he2
            rw [if_pos rfl] at he2b
            injection he2b with he2c
            show e2 = 101 + (rec.files cport ++ p.data).length
            rw [List.length_append]
            omega
          · intro q hq
            have hq2 : q ∈ [ackReply sport cport (e + p.data.length)] := hq
            rw [List.mem_singleton] at hq2
            subst hq2
            show SOk ph (rec.files cport ++ p.data).length _
            rw [List.length_append]
            cases ph with
            | shake => exact absurd hsent (by simp [phaseSent])
            | data s0 b n bs =>
              show e + p.data.length ≤
                101 + ((rec.files cport).length + p.data.length)
              omega
            | closing f => exact trivial
            | finished => exact trivial
            | failed => exact absurd hsent (by simp [phaseSent])
          · intro _
            show (rec.files cport).length ≤
              (rec.files cport ++ p.data).length
            rw [List.length_append]
            omega
        · -- in-order, empty payload: no change, no reply
          rw [if_neg hdl]
          refine ⟨hfile, hconn, ?_, fun _ => le_refl _⟩
          intro q hq
          exact absurd hq (List.not_mem_nil q)
      · -- duplicate or out-of-order: no change, one cumulative ACK
        rw [if_neg hseqe]
        have hiter : (if p.seq < e then (rec, [ackReply sport cport e])
            else (rec, [ackReply sport cport e])) =
            (rec, [ackReply sport cport e]) := by
          by_cases hlt : p.seq < e
          · rw [if_pos hlt]
          · rw [if_neg hlt]
        rw [hiter]
        refine ⟨hfile, hconn, ?_, fun _ => le_refl _⟩
        intro q hq
        have hq2 : q ∈ [ackReply sport cport e] := hq
        rw [List.mem_singleton] at hq2
        subst hq2
        cases ph with
        | shake => exact absurd hsent (by simp [phaseSent])
        | data s0 b n bs =>
          show e ≤ 101 + (rec.files cport).length
          omega
        | closing f => exact trivial
        | finished => exact trivial
        | failed => exact absurd hsent (by simp [phaseSent])
  · -- FIN
    rw [process_packet,
      if_neg (show ¬ p.flags &&& FLAG_SYN ≠ 0 by rw [hfl]; decide),
      if_pos (show p.flags &&& FLAG_FIN ≠ 0 by rw [hfl]; decide), hsrc]
    cases hc : rec.clients cport with
    | none =>
      rw [handle_fin_none sport cport p rec hc]
      refine ⟨hfile, hconn, ?_, fun _ => le_refl _⟩
      intro q hq
      exact absurd hq (List.not_mem_nil q)
    | some e =>
      rw [handle_fin_some sport cport p rec e hc]
      refine ⟨hfile, ?_, ?_, fun _ => le_refl _⟩
      · intro e2 he2
        have he2b : (if cport = cport then none else rec.clients cport) =
            some e2 := he2
        rw [if_pos rfl] at he2b
        exact absurd he2b (by simp)
      · intro q hq
        have hq2 : q ∈ [(⟨sport, cport, 0, p.seq + 1, FLAG_ACK, 1024, []⟩ : Packet)] := hq
        rw [List.mem_singleton] at hq2
        subst hq2
        cases ph with
        | shake => exact absurd hfin (by simp [phaseFin])
        | data s0 b n bs => exact absurd hfin (by simp [phaseFin])
        | closing f => exact trivial
        | finished => exact trivial
        | failed => exact absurd hfin (by simp [phaseFin])

theorem ack_process_state (chunks : List (List ℕ)) (s0 ack base bseq : ℕ)
    (hb : bseq = seqAt s0 chunks base) (hlen : base ≤ chunks.length) :
    (ack_process chunks s0 ack base bseq).2.1 =
      seqAt s0 chunks (ack_process chunks s0 ack base bseq).1 ∧
    base ≤ (ack_process chunks s0 ack base bseq).1 ∧
    (ack_process chunks s0 ack base bseq).1 ≤ chunks.length ∧
    (ack_process chunks s0 ack base bseq).2.1 ≤ max bseq ack := by
  by_cases hgt : bseq < ack
  · rw [ack_process, if_pos hgt]
    obtain ⟨r1, r2, r3, r4, r5, r6⟩ :=
      advance_loop_spec chunks s0 ack (chunks.length - base) base bseq false
        (by omega)
    set A := advance_loop chunks s0 ack (chunks.length - base) base bseq false
      with hA
    have hm : A.2.1 = if base < A.1 then seqAt s0 chunks A.1 else bseq := r5
    refine ⟨?_, r1, r2 hlen, ?_⟩
    · rw [hm]
      by_cases hlt : base < A.1
      · rw [if_pos hlt]
      · rw [if_neg hlt]
        have h1 : A.1 = base := by omega
        rw [h1, ← hb]
    · rw [hm]
      by_cases hlt : base < A.1
      · rw [if_pos hlt]
        have h2 := r3 (A.1 - 1) (by omega) (by omega)
        have h3 : A.1 - 1 + 1 = A.1 := by omega
        rw [h3] at h2
        omega
      · rw [if_neg hlt]
        omega
  · rw [ack_process, if_neg hgt]
    exact ⟨hb, le_refl _, hlen, le_max_left bseq ack⟩

theorem SOk_mono (ph : SPhase) (l1 l2 : ℕ) (q : Packet)
    (hg : ph ≠ SPhase.shake → l1 ≤ l2) (h : SOk ph l1 q) : SOk ph l2 q := by
  cases ph with
  | shake => exact h
  | data s0 b n bs =>
    have h1 : q.ack ≤ 101 + l1 := h
    have h2 : l1 ≤ l2 := hg (by intro hcon; cases hcon)
    show q.ack ≤ 101 + l2
    omega
  | closing f => exact trivial
  | finished => exact trivial
  | failed => exact trivial

theorem ROk_mono (chunks : List (List ℕ)) (ph ph2 : SPhase) (p : Packet)
    (hs : phaseSent ph → phaseSent ph2) (hf : phaseFin ph → phaseFin ph2)
    (h : ROk chunks ph p) : ROk chunks ph2 p := by
  obtain ⟨h1, h2⟩ := h
  refine ⟨h1, ?_⟩
  rcases h2 with h2 | ⟨a, b, c, d⟩ | ⟨a, b, c⟩
  · exact Or.inl h2
  · exact Or.inr (Or.inl ⟨a, hs b, c, d⟩)
  · exact Or.inr (Or.inr ⟨a, hf b, c⟩)

theorem SOk_senderRecv (chunks : List (List ℕ)) (ph : SPhase) (p q : Packet)
    (len : ℕ) (h : SOk ph len q) : SOk (senderRecv chunks ph p) len q := by
  cases ph with
  | shake =>
    rw [senderRecv]
    by_cases hcond : p.flags &&& (FLAG_SYN ||| FLAG_ACK) ≠ 0 ∧ p.ack = 100 + 1
    · rw [if_pos hcond]
      have h2 : q.ack = 101 := h
      show q.ack ≤ 101 + len
      omega
    · rw [if_neg hcond]
      exact h
  | data s0 b n bs =>
    rw [senderRecv]
    by_cases hcond : p.flags &&& FLAG_ACK ≠ 0
    · rw [if_pos hcond]
      exact h
    · rw [if_neg hcond]
      exact h
  | closing f =>
    rw [senderRecv]
    by_cases hcond : p.flags &&& FLAG_ACK ≠ 0 ∧ p.ack = f + 1
    · rw [if_pos hcond]
      exact trivial
    · rw [if_neg hcond]
      exact trivial
  | finished => exact trivial
  | failed => exact trivial

theorem phaseSent_senderRecv (chunks : List (List ℕ)) (ph : SPhase)
    (p : Packet) (h : phaseSent ph) : phaseSent (senderRecv chunks ph p) := by
  cases ph with
  | shake => exact h.elim
  | data s0 b n bs =>
    rw [senderRecv]
    by_cases hcond : p.flags &&& FLAG_ACK ≠ 0
    · rw [if_pos hcond]; exact trivial
    · rw [if_neg hcond]; exact trivial
  | closing f =>
    rw [senderRecv]
    by_cases hcond : p.flags &&& FLAG_ACK ≠ 0 ∧ p.ack = f + 1
    · rw [if_pos hcond]; exact trivial
    · rw [if_neg hcond]; exact trivial
  | finished => exact trivial
  | failed => exact h.elim

theorem phaseFin_senderRecv (chunks : List (List ℕ)) (ph : SPhase)
    (p : Packet) (h : phaseFin ph) : phaseFin (senderRecv chunks ph p) := by
  cases ph with
  | shake => exact h.elim
  | data s0 b n bs => exact h.elim
  | closing f =>
    rw [senderRecv]
    by_cases hcond : p.flags &&& FLAG_ACK ≠ 0 ∧ p.ack = f + 1
    · rw [if_pos hcond]; exact trivial
    · rw [if_neg hcond]; exact trivial
  | finished => exact trivial
  | failed => exact h.elim

theorem prefix_full (fl f2 : List ℕ) (hA : f2 = fl.take f2.length)
    (hge : fl.length ≤ f2.length) : f2 = fl := by
  have h1 := congrArg List.length hA
  rw [List.length_take] at h1
  have h2 : f2.length = fl.length := by omega
  rw [hA, h2, List.take_length]

theorem seqAt_total (chunks : List (List ℕ)) :
    seqAt 101 chunks chunks.length = 101 + chunks.flatten.length := by
  rw [seqAt, sizes_total]

/-- One step of the composed system preserves the system invariant,
provided the event satisfies the late-SYN proviso `OkAct`. -/
theorem sysStep_preserves (chunks : List (List ℕ)) (s t : Sys) (a : Act)
    (hok : OkAct s a) (hstep : sysStep chunks s a = some t)
    (hinv : SysInv chunks s) : SysInv chunks t := by
  obtain ⟨hfile, hconn, htoR, htoS, hphase⟩ := hinv
  obtain ⟨ph, rec, tR, tS⟩ := s
  replace hfile : rec.files cport =
    chunks.flatten.take (rec.files cport).length := hfile
  replace hconn : ∀ e, rec.clients cport = some e →
    e = 101 + (rec.files cport).length := hconn
  replace htoR : ∀ p ∈ tR, ROk chunks ph p := htoR
  replace htoS : ∀ p ∈ tS, SOk ph (rec.files cport).length p := htoS
  cases a with
  | synSend =>
    simp only [sysStep] at hstep
    cases ph with
    | shake =>
      injection hstep with h
      subst h
      refine ⟨hfile, hconn, ?_, htoS, hphase⟩
      intro p hp
      rcases List.mem_append.mp hp with hp | hp
      · exact htoR p hp
      · rw [List.mem_singleton] at hp
        subst hp
        exact ⟨rfl, Or.inl ⟨rfl, rfl⟩⟩
    | data s0 b n bs => cases hstep
    | closing f => cases hstep
    | finished => cases hstep
    | failed => cases hstep
  | sRecv i =>
    simp only [sysStep] at hstep
    cases hg : tS.get? i with
    | none => rw [hg] at hstep; cases hstep
    | some p =>
      rw [hg] at hstep
      injection hstep with h
      subst h
      have hpS := htoS p (List.get?_mem hg)
      refine ⟨hfile, hconn, ?_, ?_, ?_⟩
      · intro p2 hp2
        exact ROk_mono chunks ph _ p2 (phaseSent_senderRecv chunks ph p)
          (phaseFin_senderRecv chunks ph p) (htoR p2 hp2)
      · intro q hq
        exact SOk_senderRecv chunks ph p q _
          (htoS q ((List.eraseIdx_sublist tS i).subset hq))
      · cases ph with
        | shake =>
          by_cases hcond : p.flags &&& (FLAG_SYN ||| FLAG_ACK) ≠ 0 ∧
              p.ack = 100 + 1
          · have hsr : senderRecv chunks SPhase.shake p =
                SPhase.data p.ack 0 0 p.ack := by
              rw [senderRecv, if_pos hcond]
            rw [hsr]
            refine ⟨hcond.2, ?_, Nat.zero_le _, ?_⟩
            · rw [hcond.2]
              simp [seqAt]
            · rw [hcond.2]
              omega
          · have hsr : senderRecv chunks SPhase.shake p = SPhase.shake := by
              rw [senderRecv, if_neg hcond]
            rw [hsr]
            exact trivial
        | data s0 b n bs =>
          obtain ⟨hs0, hbs, hble, hbf⟩ := hphase
          by_cases hcond : p.flags &&& FLAG_ACK ≠ 0
          · have hsr : senderRecv chunks (SPhase.data s0 b n bs) p =
                SPhase.data s0 (ack_process chunks s0 p.ack b bs).1 n
                  (ack_process chunks s0 p.ack b bs).2.1 := by
              rw [senderRecv, if_pos hcond]
            rw [hsr]
            subst hs0
            obtain ⟨a1, a2, a3, a4⟩ :=
              ack_process_state chunks 101 p.ack b bs hbs hble
            have hackle : p.ack ≤ 101 + (rec.files cport).length := hpS
            replace hbf : bs ≤ 101 + (rec.files cport).length := hbf
            refine ⟨rfl, a1, a3, ?_⟩
            show (ack_process chunks 101 p.ack b bs).2.1 ≤
              101 + (rec.files cport).length
            omega
          · have hsr : senderRecv chunks (SPhase.data s0 b n bs) p =
                SPhase.data s0 b n bs := by
              rw [senderRecv, if_neg hcond]
            rw [hsr]
            exact ⟨hs0, hbs, hble, hbf⟩
        | closing f =>
          obtain ⟨hf1, hf2⟩ := hphase
          by_cases hcond : p.flags &&& FLAG_ACK ≠ 0 ∧ p.ack = f + 1
          · have hsr : senderRecv chunks (SPhase.closing f) p =
                SPhase.finished := by
              rw [senderRecv, if_pos hcond]
            rw [hsr]
            exact hf2
          · have hsr : senderRecv chunks (SPhase.closing f) p =
                SPhase.closing f := by
              rw [senderRecv, if_neg hcond]
            rw [hsr]
            exact ⟨hf1, hf2⟩
        | finished => exact hphase
        | failed => exact trivial
  | shakeFail =>
    simp only [sysStep] at hstep
    cases ph with
    | shake =>
      injection hstep with h
      subst h
      refine ⟨hfile, hconn, ?_, ?_, trivial⟩
      · intro p hp
        exact ROk_mono chunks SPhase.shake SPhase.failed p
          (fun h => (h : False).elim) (fun h => (h : False).elim) (htoR p hp)
      · intro q hq
        exact trivial
    | data s0 b n bs => cases hstep
    | closing f => cases hstep
    | finished => cases hstep
    | failed => cases hstep
  | dataSend =>
    simp only [sysStep] at hstep
    cases ph with
    | shake => cases hstep
    | data s0 b n bs =>
      replace hstep : (if n < chunks.length ∧ n < b + WINDOW_SIZE then
          some { phase := SPhase.data s0 b (n + 1) bs, recv := rec,
                 toR := tR ++ [dataPkt chunks s0 n], toS := tS }
        else none) = some t := hstep
      by_cases hcond : n < chunks.length ∧ n < b + WINDOW_SIZE
      · rw [if_pos hcond] at hstep
        injection hstep with h
        subst h
        obtain ⟨hs0, hbs, hble, hbf⟩ := hphase
        refine ⟨hfile, hconn, ?_, htoS, ⟨hs0, hbs, hble, hbf⟩⟩
        intro p hp
        rcases List.mem_append.mp hp with hp | hp
        · exact htoR p hp
        · rw [List.mem_singleton] at hp
          subst hp
          refine ⟨rfl, Or.inr (Or.inl ⟨rfl, trivial, ?_, ?_⟩)⟩
          · subst hs0
            show 101 ≤ seqAt 101 chunks n
            rw [seqAt]
            omega
          · subst hs0
            have hm : seqAt 101 chunks n - 101 =
                ((chunks.take n).map List.length).sum := by
              rw [seqAt]
              omega
            show chunks.getD n [] =
              (chunks.flatten.drop (seqAt 101 chunks n - 101)).take
                (chunks.getD n []).length
            rw [hm, chunk_slice chunks n hcond.1]
      · rw [if_neg hcond] at hstep
        cases hstep
    | closing f => cases hstep
    | finished => cases hstep
    | failed => cases hstep
  | dataTimeout =>
    simp only [sysStep] at hstep
    cases ph with
    | shake => cases hstep
    | data s0 b n bs =>
      injection hstep with h
      subst h
      exact ⟨hfile, hconn, htoR, htoS, hphase⟩
    | closing f => cases hstep
    | finished => cases hstep
    | failed => cases hstep
  | dataComplete =>
    simp only [sysStep] at hstep
    cases ph with
    | shake => cases hstep
    | data s0 b n bs =>
      replace hstep : (if b = chunks.length then
          some { phase := SPhase.closing bs, recv := rec, toR := tR, toS := tS }
        else none) = some t := hstep
      by_cases hcond : b = chunks.length
      · rw [if_pos hcond] at hstep
        injection hstep with h
        subst h
        obtain ⟨hs0, hbs, hble, hbf⟩ := hphase
        replace hbf : bs ≤ 101 + (rec.files cport).length := hbf
        subst hs0
        subst hcond
        rw [seqAt_total chunks] at hbs
        have hfull : rec.files cport = chunks.flatten :=
          prefix_full chunks.flatten (rec.files cport) hfile (by omega)
        refine ⟨hfile, hconn, ?_, ?_, ?_⟩
        · intro p hp
          exact ROk_mono chunks _ _ p (fun _ => trivial)
            (fun h => (h : False).elim) (htoR p hp)
        · intro q hq
          exact trivial
        · exact ⟨by omega, hfull⟩
      · rw [if_neg hcond] at hstep
        cases hstep
    | closing f => cases hstep
    | finished => cases hstep
    | failed => cases hstep
  | finSend =>
    simp only [sysStep] at hstep
    cases ph with
    | shake => cases hstep
    | data s0 b n bs => cases hstep
    | closing f =>
      injection hstep with h
      subst h
      obtain ⟨hf1, hf2⟩ := hphase
      refine ⟨hfile, hconn, ?_, htoS, ⟨hf1, hf2⟩⟩
      intro p hp
      rcases List.mem_append.mp hp with hp | hp
      · exact htoR p hp
      · rw [List.mem_singleton] at hp
        subst hp
        exact ⟨rfl, Or.inr (Or.inr ⟨rfl, trivial, hf1⟩)⟩
    | finished => cases hstep
    | failed => cases hstep
  | finGiveUp =>
    simp only [sysStep] at hstep
    cases ph with
    | shake => cases hstep
    | data s0 b n bs => cases hstep
    | closing f =>
      injection hstep with h
      subst h
      obtain ⟨hf1, hf2⟩ := hphase
      refine ⟨hfile, hconn, ?_, ?_, hf2⟩
      · intro p hp
        exact ROk_mono chunks _ _ p (fun _ => trivial) (fun _ => trivial)
          (htoR p hp)
      · intro q hq
        exact trivial
    | finished => cases hstep
    | failed => cases hstep
  | rDeliver i =>
    simp only [sysStep] at hstep
    cases hg : tR.get? i with
    | none => rw [hg] at hstep; cases hstep
    | some p =>
      rw [hg] at hstep
      injection hstep with h
      subst h
      have hpR := htoR p (List.get?_mem hg)
      have hsyn : p.flags &&& FLAG_SYN ≠ 0 → ph = SPhase.shake :=
        fun hf => hok p hg hf
      obtain ⟨d1, d2, d3, d4⟩ :=
        rdeliver_preserves chunks ph rec p hpR hsyn hfile hconn
      refine ⟨d1, d2, ?_, ?_, ?_⟩
      · intro p2 hp2
        exact htoR p2 ((List.eraseIdx_sublist tR i).subset hp2)
      · intro q hq
        rcases List.mem_append.mp hq with hq | hq
        · exact SOk_mono ph _ _ q d4 (htoS q hq)
        · exact d3 q hq
      · cases ph with
        | shake => exact trivial
        | data s0 b n bs =>
          obtain ⟨hs0, hbs, hble, hbf⟩ := hphase
          replace hbf : bs ≤ 101 + (rec.files cport).length := hbf
          have hgrow := d4 (by intro hcon; cases hcon)
          refine ⟨hs0, hbs, hble, ?_⟩
          show bs ≤ 101 + ((process_packet sport p rec).1.files cport).length
          omega
        | closing f =>
          obtain ⟨hf1, hf2⟩ := hphase
          replace hf2 : rec.files cport = chunks.flatten := hf2
          have hgrow := d4 (by intro hcon; cases hcon)
          have hlen : chunks.flatten.length ≤
              ((process_packet sport p rec).1.files cport).length := by
            have := congrArg List.length hf2
            omega
          exact ⟨hf1, prefix_full chunks.flatten _ d1 hlen⟩
        | finished =>
          replace hphase : rec.files cport = chunks.flatten := hphase
          have hgrow := d4 (by intro hcon; cases hcon)
          have hlen : chunks.flatten.length ≤
              ((process_packet sport p rec).1.files cport).length := by
            have := congrArg List.length hphase
            omega
          exact prefix_full chunks.flatten _ d1 hlen
        | failed => exact trivial
  | netDropR i =>
    simp only [sysStep] at hstep
    by_cases hcond : i < tR.length
    · rw [if_pos hcond] at hstep
      injection hstep with h
      subst h
      refine ⟨hfile, hconn, ?_, htoS, hphase⟩
      intro p hp
      exact htoR p ((List.eraseIdx_sublist tR i).subset hp)
    · rw [if_neg hcond] at hstep
      cases hstep
  | netDropS i =>
    simp only [sysStep] at hstep
    by_cases hcond : i < tS.length
    · rw [if_pos hcond] at hstep
      injection hstep with h
      subst h
      refine ⟨hfile, hconn, htoR, ?_, hphase⟩
      intro q hq
      exact htoS q ((List.eraseIdx_sublist tS i).subset hq)
    · rw [if_neg hcond] at hstep
      cases hstep
  | netDupR i =>
    simp only [sysStep] at hstep
    cases hg : tR.get? i with
    | none => rw [hg] at hstep; cases hstep
    | some p =>
      rw [hg] at hstep
      injection hstep with h
      subst h
      refine ⟨hfile, hconn, ?_, htoS, hphase⟩
      intro p2 hp2
      rcases List.mem_append.mp hp2 with hp2 | hp2
      · exact htoR p2 hp2
      · rw [List.mem_singleton] at hp2
        rw [hp2]
        exact htoR p (List.get?_mem hg)
  | netDupS i =>
    simp only [sysStep] at hstep
    cases hg : tS.get? i with
    | none => rw [hg] at hstep; cases hstep
    | some p =>
      rw [hg] at hstep
      injection hstep with h
      subst h
      refine ⟨hfile, hconn, htoR, ?_, hphase⟩
      intro q hq
      rcases List.mem_append.mp hq with hq | hq
      · exact htoS q hq
      · rw [List.mem_singleton] at hq
        rw [hq]
        exact htoS p (List.get?_mem hg)

theorem runOk_inv (chunks : List (List ℕ)) (s : Sys) (acts : List Act)
    (t : Sys) (h : RunOk chunks s acts t) (hs : SysInv chunks s) :
    SysInv chunks t := by
  induction h with
  | nil s => exact hs
  | cons s t u a rest hok hstep hrun ih =>
    exact ih (sysStep_preserves chunks s t a hok hstep hs)

theorem sysInit_inv (chunks : List (List ℕ)) : SysInv chunks sysInit := by
  refine ⟨rfl, ?_, ?_, ?_, trivial⟩
  · intro e he
    cases he
  · intro p hp
    cases hp
  · intro p hp
    cases hp

/-- C1 (amended): for every run of the three-process system in which the
sender completes handshake, data transfer and teardown, *and in which no
SYN-flagged datagram (original, duplicated or delayed) is delivered to the
receiver after the sender has left its handshake phase*, the receiver's
output file `data/<src_port>.in` is byte-for-byte the sender's input file
— over every interleaving and every drop/duplicate/delay outcome of the
mediator that lets the transfer complete. -/
theorem completed_transfer_file_eq (chunks : List (List ℕ)) (acts : List Act)
    (st : Sys) (hrun : RunOk chunks sysInit acts st)
    (hdone : st.phase = SPhase.finished) :
    st.recv.files cport = chunks.flatten := by
  have hinv := runOk_inv chunks sysInit acts st hrun (sysInit_inv chunks)
  have h2 : PhaseOk chunks st := hinv.hphase
  unfold PhaseOk at h2
  rw [hdone] at h2
  exact h2

/-- A schedule completing a one-chunk transfer with no impairments. -/
def cleanSchedule : List Act :=
  [.synSend, .rDeliver 0, .sRecv 0, .dataSend, .rDeliver 0, .sRecv 0,
   .dataComplete, .finSend, .rDeliver 0, .sRecv 0]

/-- Witness for C1 (amended): the clean one-chunk run satisfies the
proviso, completes, and delivers the file `[7]` intact. -/
theorem completed_transfer_file_eq_witness :
    ∃ st : Sys, RunOk [[7]] sysInit cleanSchedule st ∧
      st.recv.files cport = ([[7]] : List (List ℕ)).flatten := by
  have hrun := @RunOk.cons [[7]] sysInit _ _ Act.synSend _ trivial
    rfl
    (RunOk.cons _ _ _ (Act.rDeliver 0) _ (by intro p hp hf; rfl) rfl
    (RunOk.cons _ _ _ (Act.sRecv 0) _ trivial rfl
    (RunOk.cons _ _ _ Act.dataSend _ trivial rfl
    (RunOk.cons _ _ _ (Act.rDeliver 0) _
      (by intro p hp hf; injection hp with h; rw [← h] at hf
          exact absurd (by decide) hf) rfl
    (RunOk.cons _ _ _ (Act.sRecv 0) _ trivial rfl
    (RunOk.cons _ _ _ Act.dataComplete _ trivial rfl
    (RunOk.cons _ _ _ Act.finSend _ trivial rfl
    (RunOk.cons _ _ _ (Act.rDeliver 0) _
      (by intro p hp hf; injection hp with h; rw [← h] at hf
          exact absurd (by decide) hf) rfl
    (RunOk.cons _ _ _ (Act.sRecv 0) _ trivial rfl
    (RunOk.nil _))))))))))
  exact ⟨_, hrun, completed_transfer_file_eq [[7]] cleanSchedule _ hrun rfl⟩

end SlidingWindow
